import Mathlib

/-!
Shallow embedding of the flashcard scheduler in `src/PS1/src/algorithm.ts`
(a Leitner-style spaced-repetition core), together with proofs of the
specification's claims about it.

Modelling choices:
* Flashcards are identity-compared JS objects; their identities are modelled
  as natural numbers, and `getHint`, which reads a card's fields, works on a
  record of the card's string fields.
* A JS `Map` is an insertion-ordered association list; JS `Map` keys are
  unique, which theorems assume as `(m.map Prod.fst).Nodup` where it matters.
* A JS `Set` of cards is a `Finset Card`.
* JS strings are modelled as Lean strings (sequences of characters); all the
  inputs considered lie in the basic multilingual plane, where JS's UTF-16
  code-unit length agrees with the character count.
* The JS remainder operator `%` truncates toward zero, i.e. it is `Int.tmod`.
* JS floating-point division in `computeProgress` is modelled as exact
  division in `ℚ`; the quantities in the claims are exactly representable.
-/

/-- Cards are opaque, identity-compared entities; we model the identities as
natural numbers. -/
abbrev Card := Nat

/-- Modelled from the spec: the three-valued review outcome `AnswerDifficulty`
(its defining module `flashcards.ts` is external to the analysed source, which
consumes it as a fixed three-valued input). -/
inductive AnswerDifficulty where
  | Wrong
  | Hard
  | Easy
deriving DecidableEq, Repr

/-- A JS `Map<number, Set<Flashcard>>` (the source's `BucketMap`): an
insertion-ordered association list from bucket number to set of cards. -/
abbrev BucketMap := List (Nat × Finset Card)

/-- JS `Map.get`: the value of the first (in a real `Map`, unique) entry with
the given key. -/
def jsGet (m : BucketMap) (k : Nat) : Option (Finset Card) :=
  (m.find? (fun e => e.1 = k)).map Prod.snd

/-- JS `Map.has`. -/
def jsHas (m : BucketMap) (k : Nat) : Bool :=
  m.any (fun e => e.1 = k)

/-- The set of cards stored at a bucket number (empty when the bucket is
absent); used to state where a card lives in a mapping. -/
def bucketCards (m : BucketMap) (k : Nat) : Finset Card :=
  (jsGet m k).getD ∅

/-- The find-and-remove loop of `update`: scan entries in iteration order,
remove the card from the first set containing it and record that bucket
number; the loop `break`s, so later entries are untouched. -/
def removeFirst (m : BucketMap) (c : Card) : Option Nat × BucketMap :=
  match m with
  | [] => (none, [])
  | (k, s) :: rest =>
    if c ∈ s then (some k, (k, s.erase c) :: rest)
    else
      let r := removeFirst rest c
      (r.1, (k, s) :: r.2)

/-- `if (!updatedBuckets.has(newBucket)) updatedBuckets.set(newBucket, new Set())`:
`Map.set` on a fresh key appends the entry in iteration order. -/
def ensureBucket (m : BucketMap) (k : Nat) : BucketMap :=
  if jsHas m k then m else m ++ [(k, ∅)]

/-- `updatedBuckets.get(newBucket)!.add(card)`: insert the card into the set
stored at the given key. -/
def addToBucket (m : BucketMap) (k : Nat) (c : Card) : BucketMap :=
  m.map (fun e => if e.1 = k then (e.1, insert c e.2) else e)

/-- `update` from `algorithm.ts`.  It deep-copies the map (value semantics
here), removes the card from the first bucket containing it, computes the new
bucket from the difficulty (Wrong → 0, Hard → current, Easy → current + 1,
with current defaulting to 0 when the card was not found), ensures the
destination bucket exists and inserts the card there. -/
def update (buckets : BucketMap) (card : Card) (difficulty : AnswerDifficulty) :
    BucketMap :=
  let r := removeFirst buckets card
  let currentBucket := r.1.getD 0
  let newBucket :=
    match difficulty with
    | .Wrong => 0
    | .Hard => currentBucket
    | .Easy => currentBucket + 1
  addToBucket (ensureBucket r.2 newBucket) newBucket card

/-- The bucket a card currently occupies: the first entry in iteration order
whose set contains it (the unique such entry when each card occupies at most
one bucket). -/
def currentBucketOf (m : BucketMap) (c : Card) : Option Nat :=
  (m.find? (fun e => decide (c ∈ e.2))).map Prod.fst

/-- The destination bucket described by the spec's transition rule. -/
def targetBucket (m : BucketMap) (c : Card) (d : AnswerDifficulty) : Nat :=
  match d with
  | .Wrong => 0
  | .Hard => (currentBucketOf m c).getD 0
  | .Easy => (currentBucketOf m c).getD 0 + 1

/-- A dense bucket sequence: the source's `Array<Set<Flashcard>>`. -/
abbrev BucketSeq := List (Finset Card)

/-- `practice` from `algorithm.ts`: start from bucket 0's cards (`buckets[0]`
is absent only when the sequence is empty), then walk the indexed buckets and
add every bucket at a positive index that is non-empty and whose index
divides the day; JS `%` truncates toward zero, i.e. it is `Int.tmod`. -/
def practice (buckets : BucketSeq) (day : Int) : Finset Card :=
  let base := buckets.headD ∅
  buckets.enum.foldl
    (fun acc e =>
      if 0 < e.1 ∧ 0 < e.2.card ∧ Int.tmod day (e.1 : Int) = 0 then acc ∪ e.2
      else acc)
    base

/-- `Math.max(...Array.from(buckets.keys()))`: maximum of the keys, as the
fold JS's spread evaluates (the call site guarantees a non-empty mapping, so
the fold's base 0 never exceeds the true maximum). -/
def maxKey (m : BucketMap) : Nat := (m.map Prod.fst).foldl max 0

/-- `toBucketSets` from `algorithm.ts`: the empty mapping gives `[]`;
otherwise an array of length `maxKey + 1` whose slot `i` holds a copy of the
mapping's bucket `i`, or a fresh empty set when the key is absent. -/
def toBucketSets (m : BucketMap) : BucketSeq :=
  if m.isEmpty then []
  else (List.range (maxKey m + 1)).map (fun i => (jsGet m i).getD ∅)

/-- `getBucketRange` from `algorithm.ts`: collect (in order) the indices of
the non-empty sets, return `undefined` when there are none, and otherwise the
pair `Math.min`/`Math.max` of the collected indices. -/
def getBucketRange (buckets : BucketSeq) : Option (Nat × Nat) :=
  let valid := (buckets.enum.filter (fun e => 0 < e.2.card)).map Prod.fst
  match valid with
  | [] => none
  | v :: vs => some (vs.foldl min v, vs.foldl max v)

/-- The JS whitespace class `\s` (ECMA-262 WhiteSpace and LineTerminator):
space, tab, line feed, vertical tab, form feed, carriage return, NBSP, the
Ogham space mark, the Unicode space separators, line and paragraph
separators, the narrow/medium/ideographic spaces and the zero-width no-break
space. -/
def isJsWs (c : Char) : Bool :=
  c == ' ' || c == '\t' || c == '\n' || c == '\x0b' || c == '\x0c' ||
    c == '\r' || c == '\u00A0' || c == '\u1680' ||
    (decide ('\u2000' ≤ c) && decide (c ≤ '\u200A')) ||
    c == '\u2028' || c == '\u2029' || c == '\u202F' || c == '\u205F' ||
    c == '\u3000' || c == '\uFEFF'

/-- JS `String.prototype.trim`: strip leading and trailing JS whitespace. -/
def jsTrim (s : String) : String :=
  String.mk (((s.data.dropWhile isJsWs).reverse.dropWhile isJsWs).reverse)

/-- `str.split(/\s+/)` on a list of characters: maximal whitespace runs are
separators, so a leading run contributes a leading empty token and a trailing
run a trailing empty token; the empty string yields one empty token.  The
`inRun` flag records that the scanner is inside a separator run. -/
def splitWsAux : List Char → List Char → Bool → List (List Char)
  | [], acc, _ => [acc.reverse]
  | c :: rest, acc, inRun =>
    if isJsWs c then
      if inRun then splitWsAux rest acc true
      else acc.reverse :: splitWsAux rest [] true
    else splitWsAux rest (c :: acc) false

/-- `card.back.split(/\s+/)` as a list of words (character lists). -/
def splitWs (s : String) : List (List Char) :=
  splitWsAux s.data [] false

/-- The character class `[a-zA-Z]` of the masking regex. -/
def isAsciiAlpha (c : Char) : Bool :=
  (decide ('a' ≤ c) && decide (c ≤ 'z')) ||
    (decide ('A' ≤ c) && decide (c ≤ 'Z'))

/-- The per-word masking step of `getHint`: an empty word gives an empty
token; otherwise `word.replace(/^[^a-zA-Z]*/, '')[0] || ''` is the head of
the word after dropping leading non-alphabetic characters, and a surviving
first letter is followed by `max(0, word.length - 1)` underscores (original
word length), while a word with no alphabetic character gives an empty
token. -/
def maskWord (word : List Char) : List Char :=
  if word.length = 0 then []
  else
    match (word.dropWhile (fun c => !isAsciiAlpha c)).head? with
    | none => []
    | some firstLetter => firstLetter :: List.replicate (word.length - 1) '_'

/-- Modelled from the spec: the flashcard entity's string fields
(`flashcards.ts`, which declares the `Flashcard` class, is external to the
analysed source; `getHint` reads `hint` and `back`, with the empty string as
JS's falsy value for an absent field). -/
structure Flashcard where
  front : String
  back : String
  hint : String
  tags : List String
deriving DecidableEq, Repr

/-- `getHint` from `algorithm.ts`: a non-blank authored hint is returned
verbatim; an empty answer gives the empty string; otherwise the answer is
split on whitespace runs, each word is masked, and the tokens are joined with
single spaces. -/
def getHint (card : Flashcard) : String :=
  if card.hint ≠ "" ∧ jsTrim card.hint ≠ "" then card.hint
  else if card.back = "" then ""
  else
    String.intercalate " " (((splitWs card.back).map maskWord).map String.mk)

/-- A review-history entry: `{card, timestamp, difficulty}`. -/
structure HistoryEntry where
  card : Card
  timestamp : Int
  difficulty : AnswerDifficulty
deriving DecidableEq, Repr

/-- The snapshot record returned by `computeProgress`; the two JS `number`
statistics obtained by division are modelled in `ℚ`. -/
structure Progress where
  totalCards : Nat
  cardsPerBucket : List (Nat × Nat)
  averageBucket : ℚ
  masteredCards : Nat
  successRate : ℚ
deriving DecidableEq, Repr

/-- JS `Map.set` for the number-to-number `cardsPerBucket` map: overwrite the
entry at an existing key, otherwise append. -/
def mapSetNat (l : List (Nat × Nat)) (k v : Nat) : List (Nat × Nat) :=
  if l.any (fun e => e.1 = k) then l.map (fun e => if e.1 = k then (k, v) else e)
  else l ++ [(k, v)]

/-- The body of `computeProgress`'s single pass over the mapping's entries:
record the bucket's size in `cardsPerBucket` and accumulate `totalCards` and
`bucketSum` (bucket number times size). -/
def progressStep (acc : List (Nat × Nat) × Nat × Nat) (e : Nat × Finset Card) :
    List (Nat × Nat) × Nat × Nat :=
  (mapSetNat acc.1 e.1 e.2.card, acc.2.1 + e.2.card, acc.2.2 + e.1 * e.2.card)

/-- `computeProgress` from `algorithm.ts`, assembled from the single
accumulating pass and the derived statistics described above. -/
def computeProgress (buckets : BucketMap) (history : List HistoryEntry) :
    Progress :=
  let acc := buckets.foldl progressStep ([], 0, 0)
  let cardsPerBucket := acc.1
  let totalCards := acc.2.1
  let bucketSum := acc.2.2
  let averageBucket : ℚ :=
    if 0 < totalCards then (bucketSum : ℚ) / (totalCards : ℚ) else 0
  let masteredCards := cardsPerBucket.foldl
    (fun sum e => if 3 ≤ e.1 then sum + e.2 else sum) 0
  let successCount :=
    (history.filter (fun entry => decide (entry.difficulty ≠ .Wrong))).length
  let successRate : ℚ :=
    if 0 < history.length then ((successCount : ℚ) / (history.length : ℚ)) * 100
    else 0
  { totalCards := totalCards, cardsPerBucket := cardsPerBucket,
    averageBucket := averageBucket, masteredCards := masteredCards,
    successRate := successRate }

lemma jsGet_nil (k : Nat) : jsGet [] k = none := rfl

lemma jsGet_cons_self (k : Nat) (s : Finset Card) (l : BucketMap) :
    jsGet ((k, s) :: l) k = some s := by
  simp [jsGet, List.find?_cons_of_pos]

lemma jsGet_cons_ne {k1 k : Nat} (s : Finset Card) (l : BucketMap)
    (h : k1 ≠ k) : jsGet ((k1, s) :: l) k = jsGet l k := by
  have hn : ¬ ((fun e : Nat × Finset Card => decide (e.1 = k)) (k1, s) = true) := by
    simp [h]
  unfold jsGet
  rw [List.find?_cons_of_neg l hn]

lemma jsHas_cons (k1 k : Nat) (s : Finset Card) (l : BucketMap) :
    jsHas ((k1, s) :: l) k = (decide (k1 = k) || jsHas l k) := rfl

lemma currentBucketOf_cons_pos {c : Card} {s : Finset Card} (k : Nat)
    (rest : BucketMap) (h : c ∈ s) :
    currentBucketOf ((k, s) :: rest) c = some k := by
  have hp : (fun e : Nat × Finset Card => decide (c ∈ e.2)) (k, s) = true := by
    simp [h]
  unfold currentBucketOf
  rw [List.find?_cons_of_pos rest hp]
  rfl

lemma currentBucketOf_cons_neg {c : Card} {s : Finset Card} (k : Nat)
    (rest : BucketMap) (h : c ∉ s) :
    currentBucketOf ((k, s) :: rest) c = currentBucketOf rest c := by
  have hn : ¬ ((fun e : Nat × Finset Card => decide (c ∈ e.2)) (k, s) = true) := by
    simp [h]
  unfold currentBucketOf
  rw [List.find?_cons_of_neg rest hn]

lemma removeFirst_fst (m : BucketMap) (c : Card) :
    (removeFirst m c).1 = currentBucketOf m c := by
  induction m with
  | nil => rfl
  | cons e rest ih =>
    obtain ⟨k, s⟩ := e
    by_cases h : c ∈ s
    · rw [currentBucketOf_cons_pos k rest h]
      simp [removeFirst, h]
    · rw [currentBucketOf_cons_neg k rest h]
      simpa [removeFirst, h] using ih

lemma jsHas_iff (m : BucketMap) (k : Nat) :
    jsHas m k = true ↔ ∃ s, jsGet m k = some s := by
  induction m with
  | nil => simp [jsHas, jsGet]
  | cons e rest ih =>
    obtain ⟨k1, s1⟩ := e
    by_cases h : k1 = k
    · subst h
      simp [jsHas_cons, jsGet_cons_self]
    · simp [jsHas_cons, h, jsGet_cons_ne s1 rest h]
      exact ih

lemma jsGet_append_not_has (m : BucketMap) (k : Nat) (s0 : Finset Card)
    (h : jsHas m k = false) : jsGet (m ++ [(k, s0)]) k = some s0 := by
  induction m with
  | nil => simp [jsGet, List.find?]
  | cons e rest ih =>
    obtain ⟨k1, s1⟩ := e
    rw [jsHas_cons] at h
    rcases Bool.or_eq_false_iff.mp h with ⟨h1, h2⟩
    have hk : k1 ≠ k := by simpa using h1
    rw [List.cons_append, jsGet_cons_ne s1 _ hk]
    exact ih h2

lemma jsGet_ensureBucket_self (m : BucketMap) (k : Nat) :
    jsGet (ensureBucket m k) k = some ((jsGet m k).getD ∅) := by
  unfold ensureBucket
  by_cases h : jsHas m k = true
  · obtain ⟨s, hs⟩ := (jsHas_iff m k).mp h
    simp [h, hs]
  · have h' : jsHas m k = false := by simpa using h
    have hnone : jsGet m k = none := by
      rcases hg : jsGet m k with _ | s
      · rfl
      · exact absurd ((jsHas_iff m k).mpr ⟨s, hg⟩) (by simp [h'])
    simp [h', jsGet_append_not_has m k ∅ h', hnone]

lemma jsGet_addToBucket_self (m : BucketMap) (k : Nat) (c : Card)
    (s : Finset Card) (h : jsGet m k = some s) :
    jsGet (addToBucket m k c) k = some (insert c s) := by
  induction m with
  | nil => simp [jsGet] at h
  | cons e rest ih =>
    obtain ⟨k1, s1⟩ := e
    by_cases hk : k1 = k
    · subst hk
      rw [jsGet_cons_self] at h
      obtain rfl : s1 = s := by injection h
      have hstep : addToBucket ((k1, s1) :: rest) k1 c =
          (k1, insert c s1) :: addToBucket rest k1 c := by
        simp [addToBucket]
      rw [hstep, jsGet_cons_self]
    · rw [jsGet_cons_ne s1 rest hk] at h
      have hstep : addToBucket ((k1, s1) :: rest) k c =
          (k1, s1) :: addToBucket rest k c := by
        simp [addToBucket, hk]
      rw [hstep, jsGet_cons_ne s1 _ hk]
      exact ih h

lemma update_eq (m : BucketMap) (c : Card) (d : AnswerDifficulty) :
    update m c d =
      addToBucket (ensureBucket (removeFirst m c).2 (targetBucket m c d))
        (targetBucket m c d) c := by
  cases d <;> simp [update, targetBucket, removeFirst_fst]

/-- **C1.** For every sparse bucket mapping, card `c` and difficulty `d`,
`update buckets c d` places `c` in the bucket the spec's rule names: Wrong →
bucket 0, Hard → the current bucket, Easy → current + 1, where the current
bucket of a card found in no bucket is taken to be 0 (so an absent card
answering Easy ends up in bucket 1). -/
theorem update_places_card (m : BucketMap) (c : Card) (d : AnswerDifficulty) :
    c ∈ bucketCards (update m c d) (targetBucket m c d) := by
  rw [update_eq]
  have h1 := jsGet_ensureBucket_self (removeFirst m c).2 (targetBucket m c d)
  have h2 := jsGet_addToBucket_self (ensureBucket (removeFirst m c).2 (targetBucket m c d))
    (targetBucket m c d) c _ h1
  simp [bucketCards, h2]

lemma removeFirst_snd_keys (m : BucketMap) (c : Card) :
    ((removeFirst m c).2).map Prod.fst = m.map Prod.fst := by
  induction m with
  | nil => rfl
  | cons e rest ih =>
    obtain ⟨k, s⟩ := e
    by_cases h : c ∈ s <;> simp [removeFirst, h, ih]

lemma removeFirst_count_zero (m : BucketMap) (c : Card)
    (hone : m.countP (fun e => decide (c ∈ e.2)) ≤ 1) :
    (removeFirst m c).2.countP (fun e => decide (c ∈ e.2)) = 0 := by
  induction m with
  | nil => rfl
  | cons e rest ih =>
    obtain ⟨k, s⟩ := e
    by_cases h : c ∈ s
    · rw [List.countP_cons_of_pos _ rest (by simpa using h)] at hone
      have hrest : rest.countP (fun e => decide (c ∈ e.2)) = 0 := by omega
      have hstep : (removeFirst ((k, s) :: rest) c).2 = (k, s.erase c) :: rest := by
        simp [removeFirst, h]
      rw [hstep, List.countP_cons_of_neg _ rest (by simp), hrest]
    · rw [List.countP_cons_of_neg _ rest (by simpa using h)] at hone
      have hstep : (removeFirst ((k, s) :: rest) c).2 =
          (k, s) :: (removeFirst rest c).2 := by
        simp [removeFirst, h]
      rw [hstep, List.countP_cons_of_neg _ _ (by simpa using h)]
      exact ih hone

lemma removeFirst_mem_other (m : BucketMap) (c c' : Card) (hne : c' ≠ c)
    (k : Nat) :
    c' ∈ bucketCards (removeFirst m c).2 k ↔ c' ∈ bucketCards m k := by
  induction m with
  | nil => simp [removeFirst]
  | cons e rest ih =>
    obtain ⟨k0, s⟩ := e
    by_cases h : c ∈ s
    · have hstep : (removeFirst ((k0, s) :: rest) c).2 = (k0, s.erase c) :: rest := by
        simp [removeFirst, h]
      rw [hstep]
      by_cases hk : k0 = k
      · subst hk
        simp [bucketCards, jsGet_cons_self, Finset.mem_erase, hne]
      · rw [bucketCards, bucketCards, jsGet_cons_ne _ _ hk, jsGet_cons_ne _ _ hk]
    · have hstep : (removeFirst ((k0, s) :: rest) c).2 =
          (k0, s) :: (removeFirst rest c).2 := by
        simp [removeFirst, h]
      rw [hstep]
      by_cases hk : k0 = k
      · subst hk
        simp [bucketCards, jsGet_cons_self]
      · rw [bucketCards, bucketCards, jsGet_cons_ne _ _ hk, jsGet_cons_ne _ _ hk]
        exact ih

lemma jsHas_eq_false_iff (m : BucketMap) (k : Nat) :
    jsHas m k = false ↔ k ∉ m.map Prod.fst := by
  induction m with
  | nil => simp [jsHas]
  | cons e rest ih =>
    obtain ⟨k1, s1⟩ := e
    rw [jsHas_cons]
    simp only [List.map_cons, List.mem_cons]
    constructor
    · intro h hmem
      rcases Bool.or_eq_false_iff.mp h with ⟨h1, h2⟩
      rcases hmem with h3 | h3
      · exact absurd h3.symm (by simpa using h1)
      · exact (ih.mp h2) h3
    · intro h
      rw [Bool.or_eq_false_iff]
      refine ⟨by simpa using fun hk : k1 = k => h (Or.inl hk.symm),
        ih.mpr (fun hm => h (Or.inr hm))⟩

lemma jsGet_append_ne (m : BucketMap) (k k' : Nat) (s0 : Finset Card)
    (h : k ≠ k') : jsGet (m ++ [(k, s0)]) k' = jsGet m k' := by
  induction m with
  | nil => simp [jsGet, List.find?, h]
  | cons e rest ih =>
    obtain ⟨k1, s1⟩ := e
    by_cases hk : k1 = k'
    · subst hk
      rw [List.cons_append, jsGet_cons_self, jsGet_cons_self]
    · rw [List.cons_append, jsGet_cons_ne _ _ hk, jsGet_cons_ne _ _ hk]
      exact ih

lemma ensureBucket_mem (m : BucketMap) (k : Nat) (c' : Card) (k' : Nat) :
    c' ∈ bucketCards (ensureBucket m k) k' ↔ c' ∈ bucketCards m k' := by
  unfold ensureBucket
  by_cases h : jsHas m k = true
  · simp [h]
  · have h' : jsHas m k = false := by simpa using h
    rw [if_neg (by simp [h'])]
    by_cases hk : k = k'
    · subst hk
      have hnone : jsGet m k = none := by
        rcases hg : jsGet m k with _ | s
        · rfl
        · exact absurd ((jsHas_iff m k).mpr ⟨s, hg⟩) (by simp [h'])
      rw [bucketCards, bucketCards, jsGet_append_not_has m k ∅ h', hnone]
      simp
    · rw [bucketCards, bucketCards, jsGet_append_ne m k k' ∅ hk]

lemma ensureBucket_count_card (m : BucketMap) (k : Nat) (c : Card) :
    (ensureBucket m k).countP (fun e => decide (c ∈ e.2)) =
      m.countP (fun e => decide (c ∈ e.2)) := by
  unfold ensureBucket
  by_cases h : jsHas m k <;> simp [h, List.countP_append]

lemma ensureBucket_keys_nodup (m : BucketMap) (k : Nat)
    (hk : (m.map Prod.fst).Nodup) :
    ((ensureBucket m k).map Prod.fst).Nodup := by
  unfold ensureBucket
  by_cases h : jsHas m k = true
  · simpa [h] using hk
  · have h' : jsHas m k = false := by simpa using h
    rw [if_neg (by simp [h'])]
    simp only [List.map_append, List.map_cons, List.map_nil]
    rw [List.nodup_append]
    exact ⟨hk, List.nodup_singleton k,
      by simpa using fun hmem => (jsHas_eq_false_iff m k).mp h' hmem⟩

lemma jsHas_ensureBucket_self (m : BucketMap) (k : Nat) :
    jsHas (ensureBucket m k) k = true := by
  exact (jsHas_iff _ k).mpr ⟨_, jsGet_ensureBucket_self m k⟩

lemma countP_key_zero_of_not_mem (m : BucketMap) (k : Nat)
    (h : k ∉ m.map Prod.fst) :
    m.countP (fun e => decide (e.1 = k)) = 0 := by
  rw [List.countP_eq_zero]
  intro e he
  simp only [decide_eq_true_eq]
  intro hk
  exact h (by simpa [hk] using List.mem_map_of_mem Prod.fst he)

lemma countP_key_one (m : BucketMap) (k : Nat)
    (hnd : (m.map Prod.fst).Nodup) (hhas : jsHas m k = true) :
    m.countP (fun e => decide (e.1 = k)) = 1 := by
  induction m with
  | nil => simp [jsHas] at hhas
  | cons e rest ih =>
    obtain ⟨k1, s1⟩ := e
    simp only [List.map_cons, List.nodup_cons] at hnd
    rw [List.countP_cons]
    by_cases hk : k1 = k
    · subst hk
      rw [countP_key_zero_of_not_mem rest k1 hnd.1]
      simp
    · rw [jsHas_cons] at hhas
      have hrest : jsHas rest k = true := by
        rcases Bool.or_eq_true_iff.mp hhas with h1 | h2
        · exact absurd (by simpa using h1) hk
        · exact h2
      rw [ih hnd.2 hrest]
      simp [hk]

lemma addToBucket_mem_other (m : BucketMap) (k : Nat) (c c' : Card)
    (hne : c' ≠ c) (k' : Nat) :
    c' ∈ bucketCards (addToBucket m k c) k' ↔ c' ∈ bucketCards m k' := by
  induction m with
  | nil => simp [addToBucket]
  | cons e rest ih =>
    obtain ⟨k1, s1⟩ := e
    by_cases hk : k1 = k
    · subst hk
      have hstep : addToBucket ((k1, s1) :: rest) k1 c =
          (k1, insert c s1) :: addToBucket rest k1 c := by
        simp [addToBucket]
      rw [hstep]
      by_cases hk' : k1 = k'
      · subst hk'
        simp [bucketCards, jsGet_cons_self, Finset.mem_insert, hne]
      · rw [bucketCards, bucketCards, jsGet_cons_ne _ _ hk', jsGet_cons_ne _ _ hk']
        exact ih
    · have hstep : addToBucket ((k1, s1) :: rest) k c =
          (k1, s1) :: addToBucket rest k c := by
        simp [addToBucket, hk]
      rw [hstep]
      by_cases hk' : k1 = k'
      · subst hk'
        simp [bucketCards, jsGet_cons_self]
      · rw [bucketCards, bucketCards, jsGet_cons_ne _ _ hk', jsGet_cons_ne _ _ hk']
        exact ih

lemma addToBucket_count (m : BucketMap) (k : Nat) (c : Card)
    (hzero : m.countP (fun e => decide (c ∈ e.2)) = 0) :
    (addToBucket m k c).countP (fun e => decide (c ∈ e.2)) =
      m.countP (fun e => decide (e.1 = k)) := by
  induction m with
  | nil => rfl
  | cons e rest ih =>
    obtain ⟨k1, s1⟩ := e
    have hhead : c ∉ s1 := by
      intro hmem
      rw [List.countP_cons_of_pos _ rest (by simpa using hmem)] at hzero
      omega
    rw [List.countP_cons_of_neg _ rest (by simpa using hhead)] at hzero
    by_cases hk : k1 = k
    · subst hk
      have hstep : addToBucket ((k1, s1) :: rest) k1 c =
          (k1, insert c s1) :: addToBucket rest k1 c := by
        simp [addToBucket]
      rw [hstep, List.countP_cons_of_pos _ _ (by simp),
        List.countP_cons_of_pos _ rest (by simp), ih hzero]
    · have hstep : addToBucket ((k1, s1) :: rest) k c =
          (k1, s1) :: addToBucket rest k c := by
        simp [addToBucket, hk]
      rw [hstep, List.countP_cons_of_neg _ _ (by simpa using hhead),
        List.countP_cons_of_neg _ rest (by simpa using hk), ih hzero]

/-- **C2.** For every sparse bucket mapping (unique keys) in which the card
`c` occupies at most one bucket, `update m c d` returns a mapping in which
`c` occupies exactly one bucket, and every card other than `c` is in exactly
the same buckets as before.  (The remaining conjunct of the claim — that the
input and its nested sets are not mutated — is the copy-on-write behaviour
the value semantics of this embedding models: `update` is a pure function of
its input.) -/
theorem update_unique_and_frame (m : BucketMap) (c : Card) (d : AnswerDifficulty)
    (hk : (m.map Prod.fst).Nodup)
    (hone : m.countP (fun e => decide (c ∈ e.2)) ≤ 1) :
    (update m c d).countP (fun e => decide (c ∈ e.2)) = 1 ∧
      ∀ c', c' ≠ c → ∀ k, (c' ∈ bucketCards (update m c d) k ↔ c' ∈ bucketCards m k) := by
  rw [update_eq]
  have hrem0 : (removeFirst m c).2.countP (fun e => decide (c ∈ e.2)) = 0 :=
    removeFirst_count_zero m c hone
  have hremnd : (((removeFirst m c).2).map Prod.fst).Nodup := by
    rw [removeFirst_snd_keys]; exact hk
  have hens0 : (ensureBucket (removeFirst m c).2 (targetBucket m c d)).countP
      (fun e => decide (c ∈ e.2)) = 0 := by
    rw [ensureBucket_count_card]; exact hrem0
  have hensnd := ensureBucket_keys_nodup (removeFirst m c).2 (targetBucket m c d) hremnd
  constructor
  · rw [addToBucket_count _ _ _ hens0]
    exact countP_key_one _ _ hensnd (jsHas_ensureBucket_self _ _)
  · intro c' hne k
    rw [addToBucket_mem_other _ _ _ _ hne, ensureBucket_mem,
      removeFirst_mem_other _ _ _ hne]

/-- Witness for C2 at a concrete input: card 7 sits in bucket 2 of
`[(0, {9}), (2, {7})]` and answers Easy; afterwards it occupies exactly one
bucket, and card 9's placement in bucket 0 is unchanged. -/
theorem update_unique_and_frame_witness :
    (update [(0, {9}), (2, {7})] 7 .Easy).countP (fun e => decide ((7 : Card) ∈ e.2)) = 1 ∧
      ((9 : Card) ∈ bucketCards (update [(0, {9}), (2, {7})] 7 .Easy) 0 ↔
        (9 : Card) ∈ bucketCards [(0, {9}), (2, {7})] 0) :=
  ⟨(update_unique_and_frame [(0, {9}), (2, {7})] 7 .Easy (by decide) (by decide)).1,
   (update_unique_and_frame [(0, {9}), (2, {7})] 7 .Easy (by decide) (by decide)).2
      9 (by decide) 0⟩

lemma mem_foldl_union_filter (l : List (Nat × Finset Card))
    (p : Nat × Finset Card → Prop) [DecidablePred p] (init : Finset Card)
    (c : Card) :
    c ∈ l.foldl (fun acc e => if p e then acc ∪ e.2 else acc) init ↔
      c ∈ init ∨ ∃ e ∈ l, p e ∧ c ∈ e.2 := by
  induction l generalizing init with
  | nil => simp
  | cons e rest ih =>
    by_cases h : p e
    · rw [List.foldl_cons, if_pos h, ih]
      simp only [List.mem_cons, Finset.mem_union]
      constructor
      · rintro ((hc | hc) | ⟨e', he', hp, hc⟩)
        · exact Or.inl hc
        · exact Or.inr ⟨e, Or.inl rfl, h, hc⟩
        · exact Or.inr ⟨e', Or.inr he', hp, hc⟩
      · rintro (hc | ⟨e', (rfl | he'), hp, hc⟩)
        · exact Or.inl (Or.inl hc)
        · exact Or.inl (Or.inr hc)
        · exact Or.inr ⟨e', he', hp, hc⟩
    · rw [List.foldl_cons, if_neg h, ih]
      constructor
      · rintro (hc | ⟨e', he', hp, hc⟩)
        · exact Or.inl hc
        · exact Or.inr ⟨e', List.mem_cons_of_mem e he', hp, hc⟩
      · rintro (hc | ⟨e', he', hp, hc⟩)
        · exact Or.inl hc
        · rcases List.mem_cons.mp he' with rfl | he''
          · exact absurd hp h
          · exact Or.inr ⟨e', he'', hp, hc⟩

lemma tmod_eq_zero_iff_emod_eq_zero (a b : Int) :
    Int.tmod a b = 0 ↔ a % b = 0 := by
  constructor
  · intro h
    exact Int.emod_eq_zero_of_dvd (Int.dvd_of_tmod_eq_zero h)
  · intro h
    exact Int.tmod_eq_zero_of_dvd (Int.dvd_of_emod_eq_zero h)

lemma practice_mem (buckets : BucketSeq) (day : Int) (c : Card) :
    c ∈ practice buckets day ↔
      c ∈ buckets.headD ∅ ∨
        ∃ i, 0 < i ∧ i < buckets.length ∧ c ∈ buckets.getD i ∅ ∧
          day % (i : Int) = 0 := by
  unfold practice
  rw [mem_foldl_union_filter]
  constructor
  · rintro (hc | ⟨⟨i, b⟩, hmem, ⟨hi, _, hmod⟩, hc⟩)
    · exact Or.inl hc
    · rw [List.mk_mem_enum_iff_getElem?, List.getElem?_eq_some] at hmem
      obtain ⟨hlen, hget⟩ := hmem
      refine Or.inr ⟨i, hi, hlen, ?_, ?_⟩
      · rw [List.getD_eq_getElem buckets ∅ hlen, hget]
        exact hc
      · exact (tmod_eq_zero_iff_emod_eq_zero day (i : Int)).mp hmod
  · rintro (hc | ⟨i, hi, hlen, hc, hmod⟩)
    · exact Or.inl hc
    · refine Or.inr ⟨(i, buckets.getD i ∅), ?_, ⟨hi, ?_, ?_⟩, hc⟩
      · rw [List.mk_mem_enum_iff_getElem?, List.getElem?_eq_some]
        exact ⟨hlen, (List.getD_eq_getElem buckets ∅ hlen).symm⟩
      · exact Finset.card_pos.mpr ⟨c, hc⟩
      · exact (tmod_eq_zero_iff_emod_eq_zero day (i : Int)).mpr hmod

/-- **C3.** For every dense bucket sequence and every integer day (zero and
negative days included), a card is selected by `practice buckets day` iff it
is in bucket 0 or in some bucket `i > 0` with `day mod i = 0`; consequently
the result is always a superset of bucket 0's cards. -/
theorem practice_mem_iff (buckets : BucketSeq) (day : Int) :
    (∀ c, c ∈ practice buckets day ↔
        c ∈ buckets.headD ∅ ∨
          ∃ i, 0 < i ∧ i < buckets.length ∧ c ∈ buckets.getD i ∅ ∧
            day % (i : Int) = 0) ∧
      buckets.headD ∅ ⊆ practice buckets day := by
  refine ⟨practice_mem buckets day, fun c hc => ?_⟩
  exact (practice_mem buckets day c).mpr (Or.inl hc)

/-- **C4.** Day 0 is a review-everything day: `practice buckets 0` consists of
exactly the cards of the (non-empty) buckets of the sequence, since
`0 mod i = 0` for every `i > 0`. -/
theorem practice_day_zero (buckets : BucketSeq) (c : Card) :
    c ∈ practice buckets 0 ↔ ∃ b ∈ buckets, c ∈ b := by
  rw [practice_mem]
  constructor
  · rintro (hc | ⟨i, _, hlen, hc, _⟩)
    · rcases buckets with _ | ⟨b0, rest⟩
      · simp at hc
      · exact ⟨b0, List.mem_cons_self b0 rest, hc⟩
    · exact ⟨buckets.getD i ∅, by
        rw [List.getD_eq_getElem buckets ∅ hlen]
        exact List.getElem_mem hlen, hc⟩
  · rintro ⟨b, hb, hc⟩
    obtain ⟨i, hlen, hget⟩ := List.mem_iff_getElem.mp hb
    rcases Nat.eq_zero_or_pos i with rfl | hi
    · refine Or.inl ?_
      rcases buckets with _ | ⟨b0, rest⟩
      · simp at hlen
      · have hb0 : b0 = b := by simpa using hget
        subst hb0
        simpa using hc
    · refine Or.inr ⟨i, hi, hlen, ?_, ?_⟩
      · rw [List.getD_eq_getElem buckets ∅ hlen, hget]
        exact hc
      · exact Int.emod_eq_zero_of_dvd (dvd_zero (i : Int))

lemma foldl_max_spec (l : List Nat) (a : Nat) :
    (l.foldl max a = a ∨ l.foldl max a ∈ l) ∧ a ≤ l.foldl max a ∧
      ∀ x ∈ l, x ≤ l.foldl max a := by
  induction l generalizing a with
  | nil => simp
  | cons b rest ih =>
    obtain ⟨hmem, hle, hbound⟩ := ih (max a b)
    refine ⟨?_, ?_, ?_⟩
    · rw [List.foldl_cons]
      rcases hmem with h | h
      · rcases max_choice a b with hc | hc
        · exact Or.inl (h.trans hc)
        · exact Or.inr (by rw [h, hc]; exact List.mem_cons_self b rest)
      · exact Or.inr (List.mem_cons_of_mem b h)
    · rw [List.foldl_cons]
      exact le_trans (le_max_left a b) hle
    · intro x hx
      rw [List.foldl_cons]
      rcases List.mem_cons.mp hx with rfl | hx'
      · exact le_trans (le_max_right a x) hle
      · exact hbound x hx'

lemma foldl_min_spec (l : List Nat) (a : Nat) :
    (l.foldl min a = a ∨ l.foldl min a ∈ l) ∧ l.foldl min a ≤ a ∧
      ∀ x ∈ l, l.foldl min a ≤ x := by
  induction l generalizing a with
  | nil => simp
  | cons b rest ih =>
    obtain ⟨hmem, hle, hbound⟩ := ih (min a b)
    refine ⟨?_, ?_, ?_⟩
    · rw [List.foldl_cons]
      rcases hmem with h | h
      · rcases min_choice a b with hc | hc
        · exact Or.inl (h.trans hc)
        · exact Or.inr (by rw [h, hc]; exact List.mem_cons_self b rest)
      · exact Or.inr (List.mem_cons_of_mem b h)
    · rw [List.foldl_cons]
      exact le_trans hle (min_le_left a b)
    · intro x hx
      rw [List.foldl_cons]
      rcases List.mem_cons.mp hx with rfl | hx'
      · exact le_trans hle (min_le_right a x)
      · exact hbound x hx'

lemma jsGet_eq_some_of_mem (m : BucketMap) (k : Nat) (s : Finset Card)
    (hk : (m.map Prod.fst).Nodup) (hmem : (k, s) ∈ m) :
    jsGet m k = some s := by
  induction m with
  | nil => simp at hmem
  | cons e rest ih =>
    obtain ⟨k1, s1⟩ := e
    simp only [List.map_cons, List.nodup_cons] at hk
    rcases List.mem_cons.mp hmem with heq | hmem'
    · have h1 : k = k1 := congrArg Prod.fst heq
      have h2 : s = s1 := congrArg Prod.snd heq
      subst h1
      subst h2
      exact jsGet_cons_self k s rest
    · have hk1 : k1 ≠ k := by
        intro h
        subst h
        exact hk.1 (by simpa using List.mem_map_of_mem Prod.fst hmem')
      rw [jsGet_cons_ne _ _ hk1]
      exact ih hk.2 hmem'

lemma jsGet_eq_none_of_not_mem (m : BucketMap) (k : Nat)
    (h : k ∉ m.map Prod.fst) : jsGet m k = none := by
  rcases hg : jsGet m k with _ | s
  · rfl
  · exact absurd ((jsHas_eq_false_iff m k).mpr h)
      (by simp [(jsHas_iff m k).mpr ⟨s, hg⟩])

lemma getD_map_range (n k : Nat) (f : Nat → Finset Card) (h : k < n) :
    (((List.range n).map f).getD k ∅) = f k := by
  have hlen : k < ((List.range n).map f).length := by simpa using h
  rw [List.getD_eq_getElem _ _ hlen]
  simp

/-- **C5.** For a sparse mapping with (necessarily unique) non-negative keys:
`toBucketSets` of the empty mapping is empty; otherwise its length is the
maximum key plus one (`maxKey` is shown to really be the maximum), every key's
slot holds exactly that bucket's cards, and every in-range non-key slot is an
empty set. -/
theorem toBucketSets_spec (m : BucketMap) (hk : (m.map Prod.fst).Nodup) :
    (m = [] → toBucketSets m = []) ∧
      (m ≠ [] → (toBucketSets m).length = maxKey m + 1 ∧
        maxKey m ∈ m.map Prod.fst ∧ ∀ k ∈ m.map Prod.fst, k ≤ maxKey m) ∧
      (∀ k s, (k, s) ∈ m → (toBucketSets m).getD k ∅ = s) ∧
      (∀ i, i < (toBucketSets m).length → i ∉ m.map Prod.fst →
        (toBucketSets m).getD i ∅ = ∅) := by
  have hmax := foldl_max_spec (m.map Prod.fst) 0
  refine ⟨?_, ?_, ?_, ?_⟩
  · intro h
    subst h
    rfl
  · intro hne
    have hempty : m.isEmpty = false := by
      rcases m with _ | ⟨e, rest⟩
      · exact absurd rfl hne
      · rfl
    refine ⟨by simp [toBucketSets, hempty], ?_, fun k hkm => hmax.2.2 k hkm⟩
    rcases hmax.1 with h0 | hmem
    · obtain ⟨e, he⟩ := List.exists_mem_of_ne_nil m hne
      have hkey := hmax.2.2 e.1 (List.mem_map_of_mem Prod.fst he)
      have hmk : maxKey m = 0 := h0
      have he0 : e.1 = 0 := Nat.le_zero.mp (h0 ▸ hkey)
      rw [hmk, ← he0]
      exact List.mem_map_of_mem Prod.fst he
    · exact hmem
  · intro k s hmem
    have hne : m ≠ [] := List.ne_nil_of_mem hmem
    have hempty : m.isEmpty = false := by
      rcases m with _ | ⟨e, rest⟩
      · exact absurd rfl hne
      · rfl
    have hkmem : k ∈ m.map Prod.fst := by simpa using List.mem_map_of_mem Prod.fst hmem
    have hkle : k < maxKey m + 1 := Nat.lt_succ_of_le (hmax.2.2 k hkmem)
    rw [toBucketSets, if_neg (by simp [hempty])]
    rw [getD_map_range _ _ _ hkle, jsGet_eq_some_of_mem m k s hk hmem]
    rfl
  · intro i hi hnot
    rcases hg : m.isEmpty with _ | _
    · rw [toBucketSets, if_neg (by simp [hg])] at hi ⊢
      have hlen : i < maxKey m + 1 := by simpa using hi
      rw [getD_map_range _ _ _ hlen, jsGet_eq_none_of_not_mem m i hnot]
      rfl
    · rw [toBucketSets, if_pos (by simp [hg])] at hi
      simp at hi

/-- Witness for C5 at the mapping `[(0, {1}), (2, {5})]` with a gap at
index 1: the dense form has length 3 and slot 2 holds `{5}`. -/
theorem toBucketSets_spec_witness :
    (([(0, {1}), (2, {5})] : BucketMap) ≠ [] ∧
      (toBucketSets [(0, {1}), (2, {5})]).length = maxKey [(0, {1}), (2, {5})] + 1) ∧
      (toBucketSets [(0, {1}), (2, {5})]).getD 2 ∅ = {5} :=
  ⟨⟨by decide, ((toBucketSets_spec [(0, {1}), (2, {5})] (by decide)).2.1 (by decide)).1⟩,
    (toBucketSets_spec [(0, {1}), (2, {5})] (by decide)).2.2.1 2 {5} (by decide)⟩

lemma mem_validIndices (buckets : BucketSeq) (k : Nat) :
    k ∈ (buckets.enum.filter (fun e => 0 < e.2.card)).map Prod.fst ↔
      k < buckets.length ∧ buckets.getD k ∅ ≠ ∅ := by
  simp only [List.mem_map, List.mem_filter]
  constructor
  · rintro ⟨⟨i, b⟩, ⟨hmem, hcard⟩, rfl⟩
    rw [List.mk_mem_enum_iff_getElem?, List.getElem?_eq_some] at hmem
    obtain ⟨hlen, hget⟩ := hmem
    refine ⟨hlen, ?_⟩
    rw [List.getD_eq_getElem buckets ∅ hlen, hget]
    intro hb
    subst hb
    simp at hcard
  · rintro ⟨hlen, hne⟩
    refine ⟨(k, buckets.getD k ∅), ⟨?_, ?_⟩, rfl⟩
    · rw [List.mk_mem_enum_iff_getElem?, List.getElem?_eq_some]
      exact ⟨hlen, (List.getD_eq_getElem buckets ∅ hlen).symm⟩
    · simpa using Finset.card_pos.mpr (Finset.nonempty_iff_ne_empty.mpr hne)

/-- **C6.** `getBucketRange` returns `undefined` exactly when the sequence is
empty or every set in it is empty; otherwise it returns the pair of the
minimum and maximum indices whose set is non-empty, and when exactly one
index is non-empty both components equal it. -/
theorem getBucketRange_spec (buckets : BucketSeq) :
    (getBucketRange buckets = none ↔ ∀ b ∈ buckets, b = ∅) ∧
      (∀ lo hi, getBucketRange buckets = some (lo, hi) →
        (lo < buckets.length ∧ buckets.getD lo ∅ ≠ ∅) ∧
        (hi < buckets.length ∧ buckets.getD hi ∅ ≠ ∅) ∧
        ∀ i, i < buckets.length → buckets.getD i ∅ ≠ ∅ → lo ≤ i ∧ i ≤ hi) ∧
      (∀ k, k < buckets.length → buckets.getD k ∅ ≠ ∅ →
        (∀ i, i < buckets.length → buckets.getD i ∅ ≠ ∅ → i = k) →
        getBucketRange buckets = some (k, k)) := by
  have heq : getBucketRange buckets =
      match (buckets.enum.filter (fun e => 0 < e.2.card)).map Prod.fst with
      | [] => none
      | v :: vs => some (vs.foldl min v, vs.foldl max v) := rfl
  rcases hval : (buckets.enum.filter (fun e => 0 < e.2.card)).map Prod.fst
    with _ | ⟨v, vs⟩
  · have hnone : getBucketRange buckets = none := by rw [heq, hval]
    refine ⟨⟨fun _ b hb => ?_, fun _ => hnone⟩, fun lo hi hsome => ?_,
      fun k hklen hkne _ => ?_⟩
    · by_contra hbne
      obtain ⟨i, hlen, hget⟩ := List.mem_iff_getElem.mp hb
      have hmem : i ∈ (buckets.enum.filter (fun e => 0 < e.2.card)).map Prod.fst := by
        rw [mem_validIndices]
        refine ⟨hlen, ?_⟩
        rw [List.getD_eq_getElem buckets ∅ hlen, hget]
        exact hbne
      rw [hval] at hmem
      simp at hmem
    · rw [hnone] at hsome
      exact Option.noConfusion hsome
    · have hkmem : k ∈ (buckets.enum.filter (fun e => 0 < e.2.card)).map Prod.fst := by
        rw [mem_validIndices]
        exact ⟨hklen, hkne⟩
      rw [hval] at hkmem
      simp at hkmem
  · have hsome : getBucketRange buckets =
        some (vs.foldl min v, vs.foldl max v) := by rw [heq, hval]
    have hminspec := foldl_min_spec vs v
    have hmaxspec := foldl_max_spec vs v
    refine ⟨⟨fun h => absurd (hsome ▸ h) (by simp), fun hall => ?_⟩,
      fun lo hi hlohi => ?_, fun k hklen hkne huniq => ?_⟩
    · exfalso
      have hvmem : v ∈ (buckets.enum.filter (fun e => 0 < e.2.card)).map Prod.fst := by
        rw [hval]
        exact List.mem_cons_self v vs
      rw [mem_validIndices] at hvmem
      obtain ⟨hlen, hne⟩ := hvmem
      have hb : buckets.getD v ∅ ∈ buckets := by
        rw [List.getD_eq_getElem buckets ∅ hlen]
        exact List.getElem_mem hlen
      exact absurd (hall _ hb) hne
    · rw [hsome] at hlohi
      simp only [Option.some.injEq, Prod.mk.injEq] at hlohi
      obtain ⟨hlo, hhi⟩ := hlohi
      have hlomem : lo ∈ v :: vs := by
        rcases hminspec.1 with h | h
        · rw [← hlo, h]; exact List.mem_cons_self v vs
        · rw [← hlo]; exact List.mem_cons_of_mem v h
      have hhimem : hi ∈ v :: vs := by
        rcases hmaxspec.1 with h | h
        · rw [← hhi, h]; exact List.mem_cons_self v vs
        · rw [← hhi]; exact List.mem_cons_of_mem v h
      have hlovalid := (mem_validIndices buckets lo).mp (hval ▸ hlomem)
      have hhivalid := (mem_validIndices buckets hi).mp (hval ▸ hhimem)
      refine ⟨hlovalid, hhivalid, ?_⟩
      intro i hilen hine
      have hivalid : i ∈ v :: vs := by
        rw [← hval, mem_validIndices]
        exact ⟨hilen, hine⟩
      constructor
      · rcases List.mem_cons.mp hivalid with rfl | hi'
        · exact hlo ▸ hminspec.2.1
        · exact hlo ▸ hminspec.2.2 i hi'
      · rcases List.mem_cons.mp hivalid with rfl | hi'
        · exact hhi ▸ hmaxspec.2.1
        · exact hhi ▸ hmaxspec.2.2 i hi'
    · have hallk : ∀ x ∈ v :: vs, x = k := by
        intro x hx
        have hxv := (mem_validIndices buckets x).mp (hval ▸ hx)
        exact huniq x hxv.1 hxv.2
      have hmin : vs.foldl min v = k := by
        rcases hminspec.1 with h | h
        · rw [h]; exact hallk v (List.mem_cons_self v vs)
        · rw [hallk _ (List.mem_cons_of_mem v h)]
      have hmax : vs.foldl max v = k := by
        rcases hmaxspec.1 with h | h
        · rw [h]; exact hallk v (List.mem_cons_self v vs)
        · rw [hallk _ (List.mem_cons_of_mem v h)]
      rw [hsome, hmin, hmax]

/-- Witness for C6: the sequence `[∅, {3}, ∅]` has exactly one non-empty
bucket, at index 1, and `getBucketRange` returns `(1, 1)`. -/
theorem getBucketRange_spec_witness :
    getBucketRange [∅, {3}, ∅] = some (1, 1) :=
  (getBucketRange_spec [∅, {3}, ∅]).2.2 1 (by decide) (by decide) (by decide)

lemma dropWhile_head?_eq_find? (l : List Char) :
    (l.dropWhile (fun c => !isAsciiAlpha c)).head? = l.find? isAsciiAlpha := by
  induction l with
  | nil => rfl
  | cons c rest ih =>
    by_cases h : isAsciiAlpha c
    · rw [List.dropWhile_cons, if_neg (by simp [h]), List.find?_cons_of_pos rest h]
      rfl
    · rw [List.dropWhile_cons, if_pos (by simp [h]),
        List.find?_cons_of_neg rest (by simp [h])]
      exact ih

lemma maskWord_eq_find? (w : List Char) :
    maskWord w =
      match w.find? isAsciiAlpha with
      | none => []
      | some a => a :: List.replicate (w.length - 1) '_' := by
  cases w with
  | nil => rfl
  | cons c rest =>
    unfold maskWord
    rw [if_neg (by simp), dropWhile_head?_eq_find?]

lemma ne_empty_of_jsTrim_ne_empty (s : String) (h : jsTrim s ≠ "") : s ≠ "" := by
  intro heq
  subst heq
  exact h rfl

/-- **C7.** `getHint` returns a non-blank authored hint verbatim; with a
blank hint and empty back it returns the empty string; otherwise it splits
the back on whitespace runs and masks each word as: the first alphabetic
character of the word (equivalently, the first character surviving the strip
of leading non-alphabetic characters) followed by original-length-minus-one
underscores, an empty token when no alphabetic character exists — joined
with single spaces.  For back `"Answer"` and no authored hint this gives
`"A_____"`. -/
theorem getHint_spec :
    (∀ card : Flashcard, jsTrim card.hint ≠ "" → getHint card = card.hint) ∧
      (∀ card : Flashcard, jsTrim card.hint = "" → card.back = "" →
        getHint card = "") ∧
      (∀ card : Flashcard, jsTrim card.hint = "" → card.back ≠ "" →
        getHint card = String.intercalate " "
          ((splitWs card.back).map (fun w =>
            match w.find? isAsciiAlpha with
            | none => ""
            | some a => String.mk (a :: List.replicate (w.length - 1) '_')))) ∧
      getHint ⟨"Question", "Answer", "", []⟩ = "A_____" := by
  refine ⟨?_, ?_, ?_, by decide⟩
  · intro card h
    rw [getHint, if_pos ⟨ne_empty_of_jsTrim_ne_empty card.hint h, h⟩]
  · intro card hh hb
    rw [getHint, if_neg (by simp [hh]), if_pos hb]
  · intro card hh hb
    rw [getHint, if_neg (by simp [hh]), if_neg hb, List.map_map]
    congr 1
    refine List.map_congr_left (fun w _ => ?_)
    show String.mk (maskWord w) = _
    rw [maskWord_eq_find?]
    rcases w.find? isAsciiAlpha with _ | a
    · rfl
    · rfl

/-- Witness for C7: each implication of the spec theorem applied to a
concrete card (authored hint returned verbatim, empty back, masked back). -/
theorem getHint_spec_witness :
    getHint ⟨"Q", "Answer", "custom", []⟩ = "custom" ∧
      getHint ⟨"Q", "", "", []⟩ = "" ∧
      getHint ⟨"Q", "hi", "", []⟩ = String.intercalate " "
        ((splitWs "hi").map (fun w =>
          match w.find? isAsciiAlpha with
          | none => ""
          | some a => String.mk (a :: List.replicate (w.length - 1) '_'))) :=
  ⟨getHint_spec.1 ⟨"Q", "Answer", "custom", []⟩ (by decide),
    getHint_spec.2.1 ⟨"Q", "", "", []⟩ (by decide) rfl,
    getHint_spec.2.2.1 ⟨"Q", "hi", "", []⟩ (by decide) (by decide)⟩

lemma splitWsAux_all_ws_run (cs : List Char) (acc : List Char)
    (h : ∀ ch ∈ cs, isJsWs ch = true) : splitWsAux cs acc true = [acc.reverse] := by
  induction cs with
  | nil => rfl
  | cons c rest ih =>
    rw [splitWsAux, if_pos (h c (List.mem_cons_self c rest)), if_pos rfl]
    exact ih (fun ch hch => h ch (List.mem_cons_of_mem c hch))

lemma splitWs_all_ws (s : String) (hne : s.data ≠ [])
    (h : ∀ ch ∈ s.data, isJsWs ch = true) : splitWs s = [[], []] := by
  unfold splitWs
  rcases hd : s.data with _ | ⟨c, rest⟩
  · exact absurd hd hne
  · rw [splitWsAux, if_pos (h c (hd ▸ List.mem_cons_self c rest)), if_neg (by simp)]
    rw [splitWsAux_all_ws_run rest []
      (fun ch hch => h ch (hd ▸ List.mem_cons_of_mem c hch))]
    rfl

/-- **C9.** A card with a blank authored hint whose back is a non-empty
all-whitespace string gets the hint `" "` (one space), not the empty string:
the split produces two empty words whose empty masked tokens are joined by
one space. -/
theorem getHint_whitespace_back (card : Flashcard)
    (hh : jsTrim card.hint = "") (hb : card.back ≠ "")
    (hws : ∀ ch ∈ card.back.data, isJsWs ch = true) :
    getHint card = " " := by
  have hdata : card.back.data ≠ [] := by
    intro hnil
    apply hb
    have hmk : card.back = ⟨card.back.data⟩ := rfl
    rw [hmk, hnil]
  rw [getHint, if_neg (by simp [hh]), if_neg hb,
    splitWs_all_ws card.back hdata hws]
  rfl

/-- Witness for C9: the card with back `" "` (one space) and no authored
hint receives the hint `" "`. -/
theorem getHint_whitespace_back_witness :
    getHint ⟨"Q", " ", "", []⟩ = " " :=
  getHint_whitespace_back ⟨"Q", " ", "", []⟩ (by decide) (by decide) (by decide)

/-- **C10.** The masking regex's notion of "alphabetic" is the ASCII range
only: an accented letter such as `é` is not matched by `[a-zA-Z]`, so it is
stripped like punctuation, and for back `"élan"` with no authored hint the
exposed letter is `l` while the underscore count still reflects the original
4-character word: `"l___"`. -/
theorem getHint_nonascii_stripped :
    isAsciiAlpha 'é' = false ∧ getHint ⟨"Question", "élan", "", []⟩ = "l___" := by
  constructor
  · decide
  · decide

lemma progress_foldl_total (m : BucketMap) (cp : List (Nat × Nat)) (t s : Nat) :
    (m.foldl progressStep (cp, t, s)).2.1 = t + (m.map (fun e => e.2.card)).sum := by
  induction m generalizing cp t s with
  | nil => simp
  | cons e rest ih =>
    rw [List.foldl_cons, List.map_cons, List.sum_cons]
    show (rest.foldl progressStep
      (mapSetNat cp e.1 e.2.card, t + e.2.card, s + e.1 * e.2.card)).2.1 = _
    rw [ih, Nat.add_assoc]

lemma progress_foldl_bsum (m : BucketMap) (cp : List (Nat × Nat)) (t s : Nat) :
    (m.foldl progressStep (cp, t, s)).2.2 =
      s + (m.map (fun e => e.1 * e.2.card)).sum := by
  induction m generalizing cp t s with
  | nil => simp
  | cons e rest ih =>
    rw [List.foldl_cons, List.map_cons, List.sum_cons]
    show (rest.foldl progressStep
      (mapSetNat cp e.1 e.2.card, t + e.2.card, s + e.1 * e.2.card)).2.2 = _
    rw [ih, Nat.add_assoc]

lemma mapSetNat_fresh (l : List (Nat × Nat)) (k v : Nat)
    (h : k ∉ l.map Prod.fst) : mapSetNat l k v = l ++ [(k, v)] := by
  unfold mapSetNat
  rw [if_neg]
  intro hany
  rcases List.any_eq_true.mp hany with ⟨e, he, hk⟩
  exact h (by
    have : e.1 = k := by simpa using hk
    exact this ▸ List.mem_map_of_mem Prod.fst he)

lemma progress_foldl_cpb (m : BucketMap) (cp : List (Nat × Nat)) (t s : Nat)
    (hnd : (cp.map Prod.fst ++ m.map Prod.fst).Nodup) :
    (m.foldl progressStep (cp, t, s)).1 =
      cp ++ m.map (fun e => (e.1, e.2.card)) := by
  induction m generalizing cp t s with
  | nil => simp
  | cons e rest ih =>
    simp only [List.map_cons] at hnd
    have hfresh : e.1 ∉ cp.map Prod.fst := by
      intro hmem
      have hdisj := (List.nodup_append.mp hnd).2.2
      exact hdisj hmem (List.mem_cons_self e.1 _)
    rw [List.foldl_cons]
    show (rest.foldl progressStep
      (mapSetNat cp e.1 e.2.card, t + e.2.card, s + e.1 * e.2.card)).1 = _
    rw [mapSetNat_fresh cp e.1 e.2.card hfresh]
    have hnd' : ((cp ++ [(e.1, e.2.card)]).map Prod.fst ++ rest.map Prod.fst).Nodup := by
      simp only [List.map_append, List.map_cons, List.map_nil]
      rw [List.append_assoc]
      simpa using hnd
    rw [ih (cp ++ [(e.1, e.2.card)]) (t + e.2.card) (s + e.1 * e.2.card) hnd',
      List.append_assoc]
    rfl

lemma foldl_mastered (l : List (Nat × Nat)) (init : Nat) :
    l.foldl (fun sum e => if 3 ≤ e.1 then sum + e.2 else sum) init =
      init + ((l.filter (fun e => 3 ≤ e.1)).map Prod.snd).sum := by
  induction l generalizing init with
  | nil => simp
  | cons e rest ih =>
    rw [List.foldl_cons]
    by_cases h : 3 ≤ e.1
    · rw [if_pos h, ih, List.filter_cons_of_pos (by simpa using h),
        List.map_cons, List.sum_cons, Nat.add_assoc]
    · rw [if_neg h, ih, List.filter_cons_of_neg (by simpa using h)]

/-- **C8.** `computeProgress` returns: `totalCards` = the sum of the bucket
sizes; `averageBucket` = Σ(bucket × count) / totalCards, or 0 when there are
no cards; `masteredCards` = the number of cards in buckets numbered ≥ 3;
`successRate` = the percentage of history entries that are not Wrong, or 0
for an empty history.  On one card each in buckets 0 and 1 with a history of
one Hard and one Easy entry it returns totalCards = 2, averageBucket = 1/2,
masteredCards = 0 and successRate = 100. -/
theorem computeProgress_spec :
    (∀ (m : BucketMap) (hist : List HistoryEntry), (m.map Prod.fst).Nodup →
      (computeProgress m hist).totalCards = (m.map (fun e => e.2.card)).sum ∧
        (computeProgress m hist).averageBucket =
          (if (m.map (fun e => e.2.card)).sum = 0 then 0
           else (((m.map (fun e => e.1 * e.2.card)).sum : ℕ) : ℚ) /
             (((m.map (fun e => e.2.card)).sum : ℕ) : ℚ)) ∧
        (computeProgress m hist).masteredCards =
          ((m.filter (fun e => 3 ≤ e.1)).map (fun e => e.2.card)).sum ∧
        (computeProgress m hist).successRate =
          (if hist = [] then 0
           else ((hist.countP (fun en => decide (en.difficulty ≠ .Wrong)) : ℚ) /
             (hist.length : ℚ)) * 100)) ∧
      computeProgress [(0, {1}), (1, {2})] [⟨1, 1, .Hard⟩, ⟨2, 2, .Easy⟩] =
        { totalCards := 2, cardsPerBucket := [(0, 1), (1, 1)],
          averageBucket := 1/2, masteredCards := 0, successRate := 100 } := by
  constructor
  · intro m hist hk
    have hT : (computeProgress m hist).totalCards =
        (m.foldl progressStep ([], 0, 0)).2.1 := rfl
    have hA : (computeProgress m hist).averageBucket =
        (if 0 < (m.foldl progressStep ([], 0, 0)).2.1 then
          (((m.foldl progressStep ([], 0, 0)).2.2 : ℕ) : ℚ) /
            (((m.foldl progressStep ([], 0, 0)).2.1 : ℕ) : ℚ)
        else 0) := rfl
    have hM : (computeProgress m hist).masteredCards =
        (m.foldl progressStep ([], 0, 0)).1.foldl
          (fun sum e => if 3 ≤ e.1 then sum + e.2 else sum) 0 := rfl
    have hS : (computeProgress m hist).successRate =
        (if 0 < hist.length then
          (((hist.filter (fun en => decide (en.difficulty ≠ .Wrong))).length : ℚ) /
            (hist.length : ℚ)) * 100
        else 0) := rfl
    refine ⟨?_, ?_, ?_, ?_⟩
    · rw [hT, progress_foldl_total, Nat.zero_add]
    · rw [hA, progress_foldl_total, progress_foldl_bsum, Nat.zero_add, Nat.zero_add]
      rcases Nat.eq_zero_or_pos (m.map (fun e => e.2.card)).sum with h0 | hpos
      · rw [if_neg (by omega), if_pos h0]
      · rw [if_pos hpos, if_neg (by omega)]
    · rw [hM, progress_foldl_cpb m [] 0 0 (by simpa using hk), List.nil_append,
        foldl_mastered, Nat.zero_add, List.filter_map, List.map_map]
      rfl
    · rw [hS, ← List.countP_eq_length_filter]
      rcases hist with _ | ⟨en, rest⟩
      · rw [if_neg (by simp), if_pos rfl]
      · rw [if_pos (by simp), if_neg (by simp)]
  · rw [show computeProgress [(0, {1}), (1, {2})] [⟨1, 1, .Hard⟩, ⟨2, 2, .Easy⟩] =
        Progress.mk 2 [(0, 1), (1, 1)] (((1 : ℕ) : ℚ) / ((2 : ℕ) : ℚ)) 0
          ((((2 : ℕ) : ℚ) / ((2 : ℕ) : ℚ)) * 100) from rfl]
    simp only [Progress.mk.injEq]
    norm_num

/-- Witness for C8: the general statement applied to the mapping
`[(0, {1}), (3, {2, 5})]` (unique keys) and a one-entry Wrong history. -/
theorem computeProgress_spec_witness :
    (computeProgress [(0, {1}), (3, {2, 5})] [⟨1, 5, .Wrong⟩]).totalCards =
        (([(0, {1}), (3, {2, 5})] : BucketMap).map (fun e => e.2.card)).sum ∧
      (computeProgress [(0, {1}), (3, {2, 5})] [⟨1, 5, .Wrong⟩]).masteredCards =
        ((([(0, {1}), (3, {2, 5})] : BucketMap).filter
          (fun e => 3 ≤ e.1)).map (fun e => e.2.card)).sum :=
  ⟨(computeProgress_spec.1 [(0, {1}), (3, {2, 5})] [⟨1, 5, .Wrong⟩] (by decide)).1,
    (computeProgress_spec.1 [(0, {1}), (3, {2, 5})] [⟨1, 5, .Wrong⟩] (by decide)).2.2.1⟩

example : update [(0, ∅), (2, {7})] 7 .Wrong = [(0, {7}), (2, ∅)] := by decide
example : update [(0, ∅), (2, {7})] 7 .Easy = [(0, ∅), (2, ∅), (3, {7})] := by decide
example : update [] 5 .Easy = [(1, {5})] := by decide
example : bucketCards (update [(0, ∅), (2, {7})] 7 .Hard) 2 = {7} := by decide
